import Mathlib

/-!
Verification of the IPBlockOptimizer stable-allocation program.

The program (IPAllocToSMP.py) matches Autonomous Systems (requesters) to IP
address blocks with a requester-proposing deferred-acceptance loop, driven by
preference lists computed from network-prefix compatibility scores.

This file gives a shallow embedding of the program:
* `Network` models `ipaddress.IPv4Network` values (a 32-bit network address
  plus a prefix length); `strict=False` parsing normalizes host bits, so a
  value flowing through the program satisfies `Network.valid`.
* `can_aggregate`, `get_common_prefix_length`, `rank_ip_blocks_for_as`,
  `rank_as_for_ip_blocks` and `gale_shapley` are translated from the
  corresponding Python functions.
Python `dict`s are modelled by association lists (insertion order preserved,
keys without duplicates), Python `list.index` by `idxOf` (index of the first
occurrence, length of the list if absent), and the Python `int` arithmetic of
the scores by `Int`.
-/

/-- An IPv4 network: network address (as a natural number) and prefix length.
Models `ipaddress.IPv4Network`. -/
structure Network where
  address : Nat
  prefixlen : Nat
deriving DecidableEq, Repr

/-- A `Network` value as produced by `ipaddress.ip_network(..., strict=False)`:
the address fits in 32 bits, the prefix length is at most 32, and the host
bits (the low `32 - prefixlen` bits) are zero. -/
def Network.valid (n : Network) : Prop :=
  n.address < 2 ^ 32 ∧ n.prefixlen ≤ 32 ∧ n.address % 2 ^ (32 - n.prefixlen) = 0

/-- The broadcast address of a network: network address plus host-range size
minus one (`ipaddress.IPv4Network.broadcast_address`). -/
def Network.broadcast (n : Network) : Nat :=
  n.address + 2 ^ (32 - n.prefixlen) - 1

/-- Translation of `network1.supernet_of(network2)` from the `ipaddress`
module: `network1.network_address <= network2.network_address` and
`network2.broadcast_address <= network1.broadcast_address`. -/
def Network.supernetOf (n1 n2 : Network) : Bool :=
  decide (n1.address ≤ n2.address) && decide (n2.broadcast ≤ n1.broadcast)

/-- Translation of `network.supernet(new_prefix=k)`: `none` models the
`ValueError` raised when `k` is negative (prefix shorter than /0) or longer
than the network's own prefix; otherwise the address is masked down to the
new prefix length. -/
def Network.supernetTo (n : Network) (k : Int) : Option Network :=
  if k < 0 then none
  else if (n.prefixlen : Int) < k then none
  else some { address := n.address / 2 ^ (32 - k.toNat) * 2 ^ (32 - k.toNat),
              prefixlen := k.toNat }

/-- Translation of `can_aggregate(cidr1, cidr2)` (lines 65-91 of the source):
true if one network is a supernet of the other, or if widening both networks
by one bit past the shorter of the two prefixes yields the same supernet; the
`try/except ValueError` that catches the underflow past /0 is modelled by the
`none` branches of `Network.supernetTo`. -/
def can_aggregate (network1 network2 : Network) : Bool :=
  if Network.supernetOf network1 network2 || Network.supernetOf network2 network1 then
    true
  else
    let smallerLen :=
      if network1.prefixlen > network2.prefixlen then network2.prefixlen
      else network1.prefixlen
    match Network.supernetTo network1 ((smallerLen : Int) - 1),
          Network.supernetTo network2 ((smallerLen : Int) - 1) with
    | some supernet1, some supernet2 => if supernet1 = supernet2 then true else false
    | _, _ => false

/-- The 32 bits of an address, most significant first: the Lean counterpart of
`bin(int(addr))[2:].zfill(32)` for `addr < 2^32`. -/
def toBits (x : Nat) : List Bool :=
  (List.range 32).map fun i => x.testBit (31 - i)

/-- Count of equal leading elements of two lists: the `for ... zip ... break`
loop of `get_common_prefix_length`. -/
def commonPrefixCount : List Bool → List Bool → Nat
  | b1 :: t1, b2 :: t2 => if b1 = b2 then commonPrefixCount t1 t2 + 1 else 0
  | _, _ => 0

/-- Translation of `get_common_prefix_length(net1, net2)` (lines 97-109):
longest common prefix of the full 32-bit network addresses, independent of
either network's own prefix length. -/
def get_common_prefix_length (net1 net2 : Network) : Nat :=
  commonPrefixCount (toBits net1.address) (toBits net2.address)

/-- The score computed inline in `rank_ip_blocks_for_as` (lines 124-132):
`(lcpl * 2) + (32 - abs(prefix difference))`, over Python integers. -/
def asIpScore (as_network ip_network : Network) : Int :=
  let prefix_diff : Int := ((as_network.prefixlen : Int) - (ip_network.prefixlen : Int)).natAbs
  let aggregateability_score : Int := 32 - prefix_diff
  let lcpl : Int := get_common_prefix_length as_network ip_network
  lcpl * 2 + aggregateability_score

/-- The score computed inline in `rank_as_for_ip_blocks` (lines 159-167); the
same expression with the roles of the two networks swapped. -/
def ipAsScore (ip_network as_network : Network) : Int :=
  let prefix_diff : Int := ((ip_network.prefixlen : Int) - (as_network.prefixlen : Int)).natAbs
  let aggregateability_score : Int := 32 - prefix_diff
  let lcpl : Int := get_common_prefix_length ip_network as_network
  lcpl * 2 + aggregateability_score

/-- Modelled from the spec: `scoreCompatibility(x, y) =
2*commonPrefixLength(x,y) + (ADDRESS_WIDTH - |prefixLen(x) - prefixLen(y)|)`
(spec section 4.2), stated to be compared with the scores the source
computes. -/
def scoreCompatibility (x y : Network) : Int :=
  2 * (get_common_prefix_length x y : Int) +
    (32 - (((x.prefixlen : Int) - (y.prefixlen : Int)).natAbs : Int))

theorem commonPrefixCount_comm : ∀ l1 l2 : List Bool,
    commonPrefixCount l1 l2 = commonPrefixCount l2 l1
  | [], [] => rfl
  | [], _ :: _ => rfl
  | _ :: _, [] => rfl
  | b1 :: t1, b2 :: t2 => by
    by_cases h : b1 = b2
    · subst h
      simp [commonPrefixCount, commonPrefixCount_comm t1 t2]
    · simp [commonPrefixCount, h, Ne.symm h]

theorem get_common_prefix_length_comm (x y : Network) :
    get_common_prefix_length x y = get_common_prefix_length y x :=
  commonPrefixCount_comm _ _

/-- C7: each of the two ranking functions computes the score
`2*commonPrefixLength(x,y) + (32 - |prefixLen(x) - prefixLen(y)|)` (with the
common-prefix length taken over the full 32-bit addresses), and this score is
symmetric in its two arguments, hence identical whether ranking blocks for a
requester or requesters for a block. -/
theorem score_formula_and_symm (x y : Network) :
    asIpScore x y = scoreCompatibility x y ∧
    ipAsScore y x = scoreCompatibility x y ∧
    scoreCompatibility x y = scoreCompatibility y x := by
  have hl := get_common_prefix_length_comm x y
  refine ⟨?_, ?_, ?_⟩ <;>
    simp only [asIpScore, ipAsScore, scoreCompatibility, hl] <;> omega

/-- C8: `can_aggregate` is symmetric in its two arguments. -/
theorem can_aggregate_comm (n1 n2 : Network) :
    can_aggregate n1 n2 = can_aggregate n2 n1 := by
  unfold can_aggregate
  have hmin : (if n1.prefixlen > n2.prefixlen then n2.prefixlen else n1.prefixlen)
      = (if n2.prefixlen > n1.prefixlen then n1.prefixlen else n2.prefixlen) := by
    split <;> split <;> omega
  rw [hmin, Bool.or_comm]
  by_cases hsup : (Network.supernetOf n2 n1 || Network.supernetOf n1 n2) = true
  · simp [hsup]
  · simp only [hsup, if_false]
    rcases h1 : Network.supernetTo n1
        (((if n2.prefixlen > n1.prefixlen then n1.prefixlen else n2.prefixlen) : Nat) - 1 : Int)
      with _ | s1 <;>
    rcases h2 : Network.supernetTo n2
        (((if n2.prefixlen > n1.prefixlen then n1.prefixlen else n2.prefixlen) : Nat) - 1 : Int)
      with _ | s2 <;>
    simp only [h1, h2]
    by_cases he : s1 = s2
    · simp [he]
    · simp [he, Ne.symm he]

/-- C10: `can_aggregate` is reflexive: every network is a supernet of itself,
so the first branch returns true. -/
theorem can_aggregate_refl (n : Network) : can_aggregate n n = true := by
  unfold can_aggregate Network.supernetOf
  simp

/-- Any valid network whose prefix length is zero has address zero and covers
the whole 32-bit space, so it is a supernet of every valid network.
Consequently, for valid inputs, `can_aggregate` never reaches its
prefix-underflow branch: when the shorter prefix length is 0, the supernet
check of the first branch already fires. -/
theorem supernetOf_of_prefixlen_zero (n1 n2 : Network) (h1 : n1.valid) (h2 : n2.valid)
    (hz : n1.prefixlen = 0) : Network.supernetOf n1 n2 = true := by
  obtain ⟨ha1, -, hm1⟩ := h1
  obtain ⟨ha2, hp2, hm2⟩ := h2
  have haddr1 : n1.address = 0 := by
    have : n1.address % 2 ^ 32 = n1.address := Nat.mod_eq_of_lt ha1
    rw [hz] at hm1
    simp only [Nat.sub_zero] at hm1
    omega
  have hcov : n2.broadcast ≤ n1.broadcast := by
    unfold Network.broadcast
    rw [haddr1, hz]
    have hpow : 2 ^ (32 - n2.prefixlen) ≤ 2 ^ 32 :=
      Nat.pow_le_pow_right (by omega) (by omega)
    have : n2.address + 2 ^ (32 - n2.prefixlen) ≤ 2 ^ 32 := by
      rcases Nat.lt_or_ge (n2.address + 2 ^ (32 - n2.prefixlen)) (2 ^ 32) with h | h
      · omega
      · -- address is a multiple of the host-range size, so if it overflowed
        -- the 32-bit space it would be at least 2^32 itself
        have hdvd : 2 ^ (32 - n2.prefixlen) ∣ n2.address := Nat.dvd_of_mod_eq_zero hm2
        obtain ⟨q, hq⟩ := hdvd
        have hqlt : q < 2 ^ n2.prefixlen := by
          by_contra hq2
          push_neg at hq2
          have : 2 ^ (32 - n2.prefixlen) * 2 ^ n2.prefixlen ≤ n2.address := by
            calc 2 ^ (32 - n2.prefixlen) * 2 ^ n2.prefixlen
                ≤ 2 ^ (32 - n2.prefixlen) * q := Nat.mul_le_mul_left _ hq2
              _ = n2.address := hq.symm
          rw [← Nat.pow_add] at this
          have h32 : 32 - n2.prefixlen + n2.prefixlen = 32 := by omega
          rw [h32] at this
          omega
        have : n2.address + 2 ^ (32 - n2.prefixlen)
            = 2 ^ (32 - n2.prefixlen) * (q + 1) := by rw [hq]; ring
        have hle : 2 ^ (32 - n2.prefixlen) * (q + 1) ≤ 2 ^ (32 - n2.prefixlen) * 2 ^ n2.prefixlen :=
          Nat.mul_le_mul_left _ (by omega)
        rw [← Nat.pow_add] at hle
        have h32 : 32 - n2.prefixlen + n2.prefixlen = 32 := by omega
        rw [h32] at hle
        omega
    omega
  unfold Network.supernetOf
  simp only [Bool.and_eq_true, decide_eq_true_eq]
  exact ⟨by omega, hcov⟩

/-- Insert an element into a list sorted by descending `key`, before the first
element whose key is not larger: together with `sortDescBy` this models the
stable descending sort `list.sort(key=..., reverse=True)` of Python. -/
def insertDescBy {γ : Type} (key : γ → Int) (x : γ) : List γ → List γ
  | [] => [x]
  | y :: ys => if key y ≤ key x then x :: y :: ys else y :: insertDescBy key x ys

/-- Stable insertion sort by descending `key`. -/
def sortDescBy {γ : Type} (key : γ → Int) : List γ → List γ
  | [] => []
  | x :: xs => insertDescBy key x (sortDescBy key xs)

theorem perm_insertDescBy {γ : Type} (key : γ → Int) (x : γ) :
    ∀ l : List γ, (insertDescBy key x l).Perm (x :: l)
  | [] => List.Perm.refl _
  | y :: ys => by
    unfold insertDescBy
    split
    · exact List.Perm.refl _
    · exact ((perm_insertDescBy key x ys).cons y).trans (List.Perm.swap x y ys)

theorem perm_sortDescBy {γ : Type} (key : γ → Int) :
    ∀ l : List γ, (sortDescBy key l).Perm l
  | [] => List.Perm.refl _
  | x :: xs =>
    (perm_insertDescBy key x (sortDescBy key xs)).trans ((perm_sortDescBy key xs).cons x)

theorem pairwise_insertDescBy {γ : Type} (key : γ → Int) (x : γ) :
    ∀ l : List γ, l.Pairwise (fun p q => key q ≤ key p) →
      (insertDescBy key x l).Pairwise (fun p q => key q ≤ key p)
  | [], _ => List.pairwise_singleton _ _
  | y :: ys, h => by
    unfold insertDescBy
    rcases List.pairwise_cons.mp h with ⟨hy, hys⟩
    split
    · rename_i hxy
      refine List.pairwise_cons.mpr ⟨?_, h⟩
      intro z hz
      rcases List.mem_cons.mp hz with hz | hz
      · subst hz
        omega
      · have := hy z hz
        omega
    · rename_i hxy
      refine List.pairwise_cons.mpr ⟨?_, pairwise_insertDescBy key x ys hys⟩
      intro z hz
      have hz' := (perm_insertDescBy key x ys).mem_iff.mp hz
      rcases List.mem_cons.mp hz' with hz' | hz'
      · subst hz'
        omega
      · exact hy z hz'

theorem pairwise_sortDescBy {γ : Type} (key : γ → Int) :
    ∀ l : List γ, (sortDescBy key l).Pairwise (fun p q => key q ≤ key p)
  | [] => List.Pairwise.nil
  | x :: xs => pairwise_insertDescBy key x _ (pairwise_sortDescBy key xs)

theorem filter_insertDescBy {γ : Type} (key : γ → Int) (x : γ) (s : Int) :
    ∀ l : List γ, (insertDescBy key x l).filter (fun p => decide (key p = s))
      = if key x = s then x :: l.filter (fun p => decide (key p = s))
        else l.filter (fun p => decide (key p = s))
  | [] => by
    unfold insertDescBy
    by_cases h : key x = s <;> simp [List.filter, h]
  | y :: ys => by
    unfold insertDescBy
    split
    · rename_i hxy
      by_cases h : key x = s <;> simp [List.filter_cons, h]
    · rename_i hxy
      rw [List.filter_cons, List.filter_cons, filter_insertDescBy key x s ys]
      by_cases hx : key x = s
      · have hy : ¬ (key y = s) := by omega
        simp [hx, hy]
      · by_cases hy : key y = s <;> simp [hx, hy]

theorem filter_sortDescBy {γ : Type} (key : γ → Int) (s : Int) :
    ∀ l : List γ, (sortDescBy key l).filter (fun p => decide (key p = s))
      = l.filter (fun p => decide (key p = s))
  | [] => rfl
  | x :: xs => by
    unfold sortDescBy
    rw [filter_insertDescBy, filter_sortDescBy key s xs, List.filter_cons]
    by_cases h : key x = s <;> simp [h]

/-- Translation of `rank_ip_blocks_for_as(as_cidr, ip_blocks)` (lines
114-140): score every block against the requester's network, sort by
descending total score (Python's stable sort), return the blocks only. -/
def rank_ip_blocks_for_as (as_network : Network) (ip_blocks : List Network) : List Network :=
  let ranking := ip_blocks.map fun ip_net => (ip_net, asIpScore as_network ip_net)
  (sortDescBy (fun p => p.2) ranking).map Prod.fst

/-- Translation of `rank_as_for_ip_blocks(ip_cidr, autonomousSystems)` (lines
149-175): the AS dict is modelled as an association list in insertion order;
every AS is scored against the block's network, the pairs are sorted by
descending score, and the AS identifiers are returned. -/
def rank_as_for_ip_blocks {ι : Type} (ip_network : Network)
    (autonomousSystems : List (ι × Network)) : List ι :=
  let ranking := autonomousSystems.map fun p => (p.1, ipAsScore ip_network p.2)
  (sortDescBy (fun q => q.2) ranking).map Prod.fst

/-- Lookup in an association list (first matching key), modelling Python dict
indexing. -/
def alookup {κ δ : Type} [DecidableEq κ] (k : κ) : List (κ × δ) → Option δ
  | [] => none
  | p :: rest => if p.1 = k then some p.2 else alookup k rest

theorem alookup_mem {κ δ : Type} [DecidableEq κ] (k : κ) (v : δ) :
    ∀ ps : List (κ × δ), alookup k ps = some v → (k, v) ∈ ps
  | [], h => by simp [alookup] at h
  | p :: rest, h => by
    unfold alookup at h
    split at h
    · rename_i heq
      rcases Option.some_inj.mp h with rfl
      rcases p with ⟨k', v⟩
      simp at heq
      subst heq
      exact List.mem_cons_self _ _
    · exact List.mem_cons_of_mem _ (alookup_mem k v rest h)

theorem alookup_of_mem_keys {κ δ : Type} [DecidableEq κ] (k : κ) :
    ∀ ps : List (κ × δ), k ∈ ps.map Prod.fst → ∃ v, alookup k ps = some v
  | [], h => by simp at h
  | p :: rest, h => by
    unfold alookup
    split
    · exact ⟨p.2, rfl⟩
    · rename_i hne
      rw [List.map_cons] at h
      rcases List.mem_cons.mp h with h | h
      · exact absurd h.symm hne
      · exact alookup_of_mem_keys k rest h

theorem alookup_eq_of_mem_nodup {κ δ : Type} [DecidableEq κ] (k : κ) (v : δ) :
    ∀ ps : List (κ × δ), (ps.map Prod.fst).Nodup → (k, v) ∈ ps →
      alookup k ps = some v
  | [], _, h => by simp at h
  | p :: rest, hnd, h => by
    rw [List.map_cons, List.nodup_cons] at hnd
    unfold alookup
    rcases List.mem_cons.mp h with h | h
    · rw [← h]
      simp
    · split
      · rename_i heq
        exfalso
        exact hnd.1 (heq ▸ List.mem_map_of_mem Prod.fst h)
      · exact alookup_eq_of_mem_nodup k v rest hnd.2 h

/-- The score of an AS identifier for a given block, read back through the
association list (total function; the claims only use it under key-nodup). -/
def idScore {ι : Type} [DecidableEq ι] (ip_network : Network)
    (autonomousSystems : List (ι × Network)) (i : ι) : Int :=
  match alookup i autonomousSystems with
  | some net => ipAsScore ip_network net
  | none => 0

theorem rank_spec {γ ι : Type} (sc : ι → Int) (mk : γ → ι × Int) (L : List γ)
    (hmk : ∀ c ∈ L, (mk c).2 = sc (mk c).1) :
    ((sortDescBy (fun q => q.2) (L.map mk)).map Prod.fst).Perm (L.map fun c => (mk c).1) ∧
    ((sortDescBy (fun q => q.2) (L.map mk)).map Prod.fst).Pairwise (fun i j => sc j ≤ sc i) ∧
    ∀ s : Int,
      ((sortDescBy (fun q => q.2) (L.map mk)).map Prod.fst).filter (fun i => decide (sc i = s))
        = (L.map fun c => (mk c).1).filter (fun i => decide (sc i = s)) := by
  have hperm : (sortDescBy (fun q : ι × Int => q.2) (L.map mk)).Perm (L.map mk) :=
    perm_sortDescBy _ _
  have hmem : ∀ p ∈ sortDescBy (fun q : ι × Int => q.2) (L.map mk), p.2 = sc p.1 := by
    intro p hp
    rcases List.mem_map.mp (hperm.mem_iff.mp hp) with ⟨c, hc, rfl⟩
    exact hmk c hc
  refine ⟨?_, ?_, ?_⟩
  · have h := hperm.map Prod.fst
    rwa [List.map_map] at h
  · refine List.pairwise_map.mpr ?_
    refine List.Pairwise.imp_of_mem ?_ (pairwise_sortDescBy (fun q : ι × Int => q.2) (L.map mk))
    intro a b ha hb hr
    rw [← hmem a ha, ← hmem b hb]
    exact hr
  · intro s
    calc ((sortDescBy (fun q : ι × Int => q.2) (L.map mk)).map Prod.fst).filter
          (fun i => decide (sc i = s))
        = ((sortDescBy (fun q : ι × Int => q.2) (L.map mk)).filter
            ((fun i => decide (sc i = s)) ∘ Prod.fst)).map Prod.fst := List.filter_map _ _
      _ = ((sortDescBy (fun q : ι × Int => q.2) (L.map mk)).filter
            (fun q => decide (q.2 = s))).map Prod.fst := by
          congr 1
          apply List.filter_congr
          intro p hp
          simp [Function.comp, hmem p hp]
      _ = ((L.map mk).filter (fun q => decide (q.2 = s))).map Prod.fst := by
          rw [filter_sortDescBy]
      _ = ((L.filter ((fun q : ι × Int => decide (q.2 = s)) ∘ mk)).map mk).map Prod.fst := by
          rw [List.filter_map]
      _ = (L.filter ((fun q : ι × Int => decide (q.2 = s)) ∘ mk)).map
            (Prod.fst ∘ mk) := by rw [List.map_map]
      _ = (L.filter ((fun i => decide (sc i = s)) ∘ fun c => (mk c).1)).map
            (Prod.fst ∘ mk) := by
          congr 1
          apply List.filter_congr
          intro c hc
          simp [Function.comp, hmk c hc]
      _ = (L.map fun c => (mk c).1).filter (fun i => decide (sc i = s)) := by
          rw [List.filter_map]
          rfl

/-- C6: each ranking function returns exactly the input candidates (a
permutation: same length, nothing omitted, nothing duplicated), sorted by
descending compatibility score, and candidates with equal scores keep their
input iteration order (the filtered sublist at each score value is unchanged).
For the AS ranking the association list must have distinct keys, as a Python
dict does. -/
theorem rank_functions_spec (as_network : Network) (ip_blocks : List Network)
    {ι : Type} [DecidableEq ι] (ip_network : Network)
    (autonomousSystems : List (ι × Network))
    (hnd : (autonomousSystems.map Prod.fst).Nodup) :
    (rank_ip_blocks_for_as as_network ip_blocks).Perm ip_blocks ∧
    (rank_ip_blocks_for_as as_network ip_blocks).Pairwise
      (fun x y => asIpScore as_network y ≤ asIpScore as_network x) ∧
    (∀ s : Int,
      (rank_ip_blocks_for_as as_network ip_blocks).filter
          (fun c => decide (asIpScore as_network c = s))
        = ip_blocks.filter (fun c => decide (asIpScore as_network c = s))) ∧
    (rank_as_for_ip_blocks ip_network autonomousSystems).Perm
      (autonomousSystems.map Prod.fst) ∧
    (rank_as_for_ip_blocks ip_network autonomousSystems).Pairwise
      (fun i j => idScore ip_network autonomousSystems j
        ≤ idScore ip_network autonomousSystems i) ∧
    (∀ s : Int,
      (rank_as_for_ip_blocks ip_network autonomousSystems).filter
          (fun i => decide (idScore ip_network autonomousSystems i = s))
        = (autonomousSystems.map Prod.fst).filter
            (fun i => decide (idScore ip_network autonomousSystems i = s))) := by
  obtain ⟨ha1, hb1, hc1⟩ :=
    rank_spec (asIpScore as_network) (fun c => (c, asIpScore as_network c)) ip_blocks
      (fun c _ => rfl)
  have hid : (ip_blocks.map fun c =>
      ((fun c => (c, asIpScore as_network c)) c).1) = ip_blocks := by simp
  rw [hid] at ha1 hc1
  obtain ⟨ha2, hb2, hc2⟩ :=
    rank_spec (idScore ip_network autonomousSystems)
      (fun p : ι × Network => (p.1, ipAsScore ip_network p.2)) autonomousSystems
      (by
        intro p hp
        show ipAsScore ip_network p.2 = idScore ip_network autonomousSystems p.1
        unfold idScore
        rw [alookup_eq_of_mem_nodup p.1 p.2 autonomousSystems hnd hp])
  have hid2 : (autonomousSystems.map fun p : ι × Network =>
      ((fun p : ι × Network => (p.1, ipAsScore ip_network p.2)) p).1)
      = autonomousSystems.map Prod.fst := rfl
  rw [hid2] at ha2 hc2
  exact ⟨ha1, hb1, hc1, ha2, hb2, hc2⟩

/-- Index of the first occurrence of an element in a list, modelling Python
`list.index`; equals the length of the list when the element is absent (where
Python would raise `ValueError`, which cannot happen on the complete
preference lists the engine is run with). -/
def idxOf {κ : Type} [DecidableEq κ] (x : κ) : List κ → Nat
  | [] => 0
  | y :: l => if y = x then 0 else idxOf x l + 1

theorem idxOf_cons {κ : Type} [DecidableEq κ] (x y : κ) (l : List κ) :
    idxOf x (y :: l) = if y = x then 0 else idxOf x l + 1 := rfl

theorem idxOf_le_length {κ : Type} [DecidableEq κ] (x : κ) :
    ∀ l : List κ, idxOf x l ≤ l.length
  | [] => Nat.le_refl 0
  | y :: l => by
    unfold idxOf
    split
    · simp
    · have := idxOf_le_length x l
      simp only [List.length_cons]
      omega

theorem idxOf_lt_length {κ : Type} [DecidableEq κ] (x : κ) :
    ∀ l : List κ, x ∈ l → idxOf x l < l.length
  | y :: l, h => by
    unfold idxOf
    split
    · simp
    · rename_i hne
      rcases List.mem_cons.mp h with h | h
      · exact absurd h.symm hne
      · have := idxOf_lt_length x l h
        simp only [List.length_cons]
        omega

theorem idxOf_inj {κ : Type} [DecidableEq κ] (x y : κ) :
    ∀ l : List κ, x ∈ l → y ∈ l → idxOf x l = idxOf y l → x = y
  | z :: l, hx, hy, h => by
    unfold idxOf at h
    by_cases hzx : z = x <;> by_cases hzy : z = y
    · rw [← hzx, hzy]
    · rw [if_pos hzx, if_neg hzy] at h
      exact absurd h.symm (Nat.succ_ne_zero _)
    · rw [if_neg hzx, if_pos hzy] at h
      exact absurd h (Nat.succ_ne_zero _)
    · rw [if_neg hzx, if_neg hzy] at h
      rcases List.mem_cons.mp hx with hx | hx
      · exact absurd hx.symm hzx
      rcases List.mem_cons.mp hy with hy | hy
      · exact absurd hy.symm hzy
      exact idxOf_inj x y l hx hy (by omega)

theorem idxOf_append_of_notMem {κ : Type} [DecidableEq κ] (x : κ) :
    ∀ l0 l1 : List κ, x ∉ l0 → idxOf x (l0 ++ l1) = l0.length + idxOf x l1
  | [], l1, _ => by simp
  | y :: l0, l1, h => by
    have hyx : y ≠ x := fun hc => h (hc ▸ List.mem_cons_self y l0)
    have hx : x ∉ l0 := fun hc => h (List.mem_cons_of_mem y hc)
    rw [List.cons_append, idxOf_cons, if_neg hyx, idxOf_append_of_notMem x l0 l1 hx]
    simp only [List.length_cons]
    omega

theorem mem_left_of_idxOf_lt {κ : Type} [DecidableEq κ] (x : κ) (l0 l1 : List κ)
    (hlt : idxOf x (l0 ++ l1) < l0.length) : x ∈ l0 := by
  by_contra hx
  rw [idxOf_append_of_notMem x l0 l1 hx] at hlt
  omega

/-- The state of the `gale_shapley` while-loop: the `free_as` work list, the
`engagements` dict (requester to block) and the `proposals` dict (block to
tentatively accepted requester), the two dicts modelled as functions into
`Option`. -/
structure GSState (α β : Type) where
  free : List α
  engagements : α → Option β
  proposals : β → Option α

/-- Pointwise update of a function, modelling assignment into a Python dict
(and `fupd f k none` modelling `del f[k]`). -/
def fupd {κ δ : Type} [DecidableEq κ] (f : κ → Option δ) (x : κ) (v : Option δ) :
    κ → Option δ :=
  fun y => if y = x then v else f y

theorem fupd_same {κ δ : Type} [DecidableEq κ] (f : κ → Option δ) (x : κ) (v : Option δ) :
    fupd f x v x = v := by simp [fupd]

theorem fupd_ne {κ δ : Type} [DecidableEq κ] (f : κ → Option δ) (x y : κ) (v : Option δ)
    (h : y ≠ x) : fupd f x v y = f y := by simp [fupd, h]

/-- The preference list of a requester, `as_prefs[as_id]` (empty list instead
of Python's `KeyError` for an absent key). -/
def asPref {α β : Type} [DecidableEq α] (asPrefs : List (α × List β)) (a : α) : List β :=
  (alookup a asPrefs).getD []

/-- The preference list of a block, `ip_prefs[ip]`. -/
def ipPref {α β : Type} [DecidableEq β] (ipPrefs : List (β × List α)) (b : β) : List α :=
  (alookup b ipPrefs).getD []

/-- Translation of the inner `for ip in as_prefs[as_id]` loop of
`gale_shapley` (lines 247-260): the popped requester walks down its whole
preference list; an unclaimed block accepts immediately; a claimed block
switches to the proposer exactly when the block ranks the proposer strictly
earlier than its current holder, putting the displaced holder back at the end
of the free list; otherwise the requester moves on to its next preference. -/
def propose {α β : Type} [DecidableEq α] [DecidableEq β] (ipPrefs : List (β × List α))
    (as_id : α) : List β → GSState α β → GSState α β
  | [], st => st
  | ip :: rest, st =>
    match st.proposals ip with
    | none =>
      { st with
        proposals := fupd st.proposals ip (some as_id)
        engagements := fupd st.engagements as_id (some ip) }
    | some current_as =>
      if idxOf as_id (ipPref ipPrefs ip) < idxOf current_as (ipPref ipPrefs ip) then
        { free := st.free ++ [current_as]
          proposals := fupd st.proposals ip (some as_id)
          engagements := fupd (fupd st.engagements as_id (some ip)) current_as none }
      else
        propose ipPrefs as_id rest st

/-- Translation of the outer `while free_as` loop of `gale_shapley`, with
explicit fuel: each iteration pops the head of the free list and runs the
inner proposal scan. `gale_shapley` supplies enough fuel for the loop to
drain the free list (`gsRun_free_nil` below). -/
def gsRun {α β : Type} [DecidableEq α] [DecidableEq β] (asPrefs : List (α × List β))
    (ipPrefs : List (β × List α)) : Nat → GSState α β → GSState α β
  | 0, st => st
  | fuel + 1, st =>
    match st.free with
    | [] => st
    | as_id :: rest =>
      gsRun asPrefs ipPrefs fuel
        (propose ipPrefs as_id (asPref asPrefs as_id) { st with free := rest })

/-- The initial state of `gale_shapley` (lines 241-243): every requester free
in key order, no engagements, every block's proposal slot `None`. -/
def initState {α β : Type} (asPrefs : List (α × List β)) : GSState α β :=
  { free := asPrefs.map Prod.fst
    engagements := fun _ => none
    proposals := fun _ => none }

/-- Fuel sufficient for the while-loop to terminate: one unit per initial
free requester plus, for every block, one unit per position of its preference
list and one for its unclaimed state. -/
def gsFuel {α β : Type} (asPrefs : List (α × List β)) (ipPrefs : List (β × List α)) : Nat :=
  asPrefs.length + (ipPrefs.map fun p => p.2.length + 1).sum

/-- Translation of `gale_shapley(as_prefs, ip_prefs)` (lines 239-261),
returning the final `engagements` mapping. -/
def gale_shapley {α β : Type} [DecidableEq α] [DecidableEq β] (asPrefs : List (α × List β))
    (ipPrefs : List (β × List α)) : α → Option β :=
  (gsRun asPrefs ipPrefs (gsFuel asPrefs ipPrefs) (initState asPrefs)).engagements

/-- Well-formed, complete preference maps: the requester keys and the block
keys are duplicate-free (they come from Python dicts), every requester's list
is a permutation of the block keys, and every block's list is a permutation
of the requester keys. -/
def PrefsWF {α β : Type} (asPrefs : List (α × List β)) (ipPrefs : List (β × List α)) : Prop :=
  (asPrefs.map Prod.fst).Nodup ∧ (ipPrefs.map Prod.fst).Nodup ∧
  (∀ p ∈ asPrefs, p.2.Perm (ipPrefs.map Prod.fst)) ∧
  (∀ p ∈ ipPrefs, p.2.Perm (asPrefs.map Prod.fst))

theorem asPref_perm {α β : Type} [DecidableEq α] {asPrefs : List (α × List β)}
    {ipPrefs : List (β × List α)} (wf : PrefsWF asPrefs ipPrefs) {a : α}
    (ha : a ∈ asPrefs.map Prod.fst) : (asPref asPrefs a).Perm (ipPrefs.map Prod.fst) := by
  obtain ⟨v, hv⟩ := alookup_of_mem_keys a asPrefs ha
  have hmem := alookup_mem a v asPrefs hv
  have := wf.2.2.1 (a, v) hmem
  simpa [asPref, hv] using this

theorem ipPref_perm {α β : Type} [DecidableEq β] {asPrefs : List (α × List β)}
    {ipPrefs : List (β × List α)} (wf : PrefsWF asPrefs ipPrefs) {b : β}
    (hb : b ∈ ipPrefs.map Prod.fst) : (ipPref ipPrefs b).Perm (asPrefs.map Prod.fst) := by
  obtain ⟨v, hv⟩ := alookup_of_mem_keys b ipPrefs hb
  have hmem := alookup_mem b v ipPrefs hv
  have := wf.2.2.2 (b, v) hmem
  simpa [ipPref, hv] using this

/-- Contribution of one block entry to the termination measure: one plus the
rank of the block's current holder, or one plus the full list length while
the block is unclaimed. -/
def potTerm {α β : Type} [DecidableEq α] (P : β → Option α) (p : β × List α) : Nat :=
  match P p.1 with
  | none => p.2.length + 1
  | some c => idxOf c p.2 + 1

/-- Termination potential of the proposals map: holders of blocks only ever
improve in the block's preference order, so this sum never increases. -/
def gsPotential {α β : Type} [DecidableEq α] (ipPrefs : List (β × List α))
    (P : β → Option α) : Nat :=
  (ipPrefs.map (potTerm P)).sum

/-- Termination measure of a state: pending free requesters plus the
potential of the proposals map. -/
def gsMeasure {α β : Type} [DecidableEq α] (ipPrefs : List (β × List α))
    (st : GSState α β) : Nat :=
  st.free.length + gsPotential ipPrefs st.proposals

theorem potTerm_fupd_ne {α β : Type} [DecidableEq α] [DecidableEq β] (P : β → Option α)
    (ip : β) (v : Option α) (p : β × List α) (h : p.1 ≠ ip) :
    potTerm (fupd P ip v) p = potTerm P p := by
  unfold potTerm
  rw [fupd_ne P ip p.1 v h]

theorem gsPotential_claim_le {α β : Type} [DecidableEq α] [DecidableEq β]
    (ipPrefs : List (β × List α)) (P : β → Option α) (ip : β) (a : α)
    (hP : P ip = none) :
    gsPotential ipPrefs (fupd P ip (some a)) ≤ gsPotential ipPrefs P := by
  unfold gsPotential
  apply List.sum_le_sum
  intro p hp
  by_cases hip : p.1 = ip
  · unfold potTerm
    rw [hip, fupd_same, hP]
    show idxOf a p.2 + 1 ≤ p.2.length + 1
    have := idxOf_le_length a p.2
    omega
  · rw [potTerm_fupd_ne P ip (some a) p hip]

theorem gsPotential_displace_lt {α β : Type} [DecidableEq α] [DecidableEq β] :
    ∀ ipPrefs : List (β × List α), (ipPrefs.map Prod.fst).Nodup →
    ∀ (P : β → Option α) (ip : β) (a current : α), P ip = some current →
      idxOf a (ipPref ipPrefs ip) < idxOf current (ipPref ipPrefs ip) →
      gsPotential ipPrefs (fupd P ip (some a)) + 1 ≤ gsPotential ipPrefs P
  | [], _, P, ip, a, current, _, hlt => by
    simp [ipPref, alookup, idxOf] at hlt
  | p :: rest, hnd, P, ip, a, current, hP, hlt => by
    rw [List.map_cons, List.nodup_cons] at hnd
    by_cases hip : p.1 = ip
    · have hpref : ipPref (p :: rest) ip = p.2 := by
        simp [ipPref, alookup, hip]
      rw [hpref] at hlt
      unfold gsPotential
      rw [List.map_cons, List.map_cons, List.sum_cons, List.sum_cons]
      have hhead : potTerm (fupd P ip (some a)) p + 1 ≤ potTerm P p := by
        unfold potTerm
        rw [hip, fupd_same, hP]
        show idxOf a p.2 + 1 + 1 ≤ idxOf current p.2 + 1
        omega
      have hrest : (rest.map (potTerm (fupd P ip (some a)))).sum
          = (rest.map (potTerm P)).sum := by
        apply congrArg
        apply List.map_congr_left
        intro q hq
        apply potTerm_fupd_ne
        intro hc
        apply hnd.1
        rw [hip, ← hc]
        exact List.mem_map_of_mem Prod.fst hq
      omega
    · have hpref : ipPref (p :: rest) ip = ipPref rest ip := by
        simp [ipPref, alookup, hip]
      rw [hpref] at hlt
      have hrec := gsPotential_displace_lt rest hnd.2 P ip a current hP hlt
      unfold gsPotential
      rw [List.map_cons, List.map_cons, List.sum_cons, List.sum_cons,
        potTerm_fupd_ne P ip (some a) p hip]
      unfold gsPotential at hrec
      omega

theorem propose_measure_le {α β : Type} [DecidableEq α] [DecidableEq β]
    (ipPrefs : List (β × List α)) (hnd : (ipPrefs.map Prod.fst).Nodup) (as_id : α) :
    ∀ (l : List β) (st : GSState α β),
      gsMeasure ipPrefs (propose ipPrefs as_id l st) ≤ gsMeasure ipPrefs st
  | [], st => Nat.le_refl _
  | ip :: rest, st => by
    unfold propose
    rcases hP : st.proposals ip with _ | current
    · simp only
      unfold gsMeasure
      simp only
      have := gsPotential_claim_le ipPrefs st.proposals ip as_id hP
      omega
    · simp only
      split
      · rename_i hlt
        unfold gsMeasure
        simp only [List.length_append, List.length_cons, List.length_nil]
        have := gsPotential_displace_lt ipPrefs hnd st.proposals ip as_id current hP hlt
        omega
      · exact propose_measure_le ipPrefs hnd as_id rest st

theorem gsRun_free_nil {α β : Type} [DecidableEq α] [DecidableEq β]
    (asPrefs : List (α × List β)) (ipPrefs : List (β × List α))
    (hnd : (ipPrefs.map Prod.fst).Nodup) :
    ∀ (fuel : Nat) (st : GSState α β), gsMeasure ipPrefs st ≤ fuel →
      (gsRun asPrefs ipPrefs fuel st).free = []
  | 0, st, h => by
    unfold gsMeasure at h
    have : st.free.length = 0 := by omega
    unfold gsRun
    exact List.length_eq_zero.mp this
  | fuel + 1, st, h => by
    unfold gsRun
    rcases hf : st.free with _ | ⟨as_id, rest⟩
    · exact hf
    · simp only
      apply gsRun_free_nil asPrefs ipPrefs hnd fuel
      have hm := propose_measure_le ipPrefs hnd as_id (asPref asPrefs as_id)
        { st with free := rest }
      unfold gsMeasure at hm h ⊢
      simp only at hm ⊢
      rw [hf] at h
      simp only [List.length_cons] at h
      omega

theorem gale_shapley_drained {α β : Type} [DecidableEq α] [DecidableEq β]
    (asPrefs : List (α × List β)) (ipPrefs : List (β × List α))
    (hnd : (ipPrefs.map Prod.fst).Nodup) :
    (gsRun asPrefs ipPrefs (gsFuel asPrefs ipPrefs) (initState asPrefs)).free = [] := by
  apply gsRun_free_nil asPrefs ipPrefs hnd
  unfold gsMeasure gsFuel initState gsPotential
  simp only [List.length_map]
  have : ipPrefs.map (potTerm (α := α) fun _ => none)
      = ipPrefs.map fun p => p.2.length + 1 := by
    apply List.map_congr_left
    intro p _
    rfl
  rw [this]

/-- Block `b` is currently claimed by a requester that `b` ranks strictly
before `a`: the condition under which the inner loop walks past `b` when `a`
proposes to it. -/
def betterHolds {α β : Type} [DecidableEq α] [DecidableEq β] (ipPrefs : List (β × List α))
    (st : GSState α β) (a : α) (b : β) : Prop :=
  ∃ c, st.proposals b = some c ∧
    idxOf c (ipPref ipPrefs b) < idxOf a (ipPref ipPrefs b)

/-- Requester `a` prefers block `b` to its current situation: `b` is on `a`'s
preference list, and is ranked strictly before `a`'s current block whenever
`a` is engaged. -/
def aWants {α β : Type} [DecidableEq α] [DecidableEq β] (asPrefs : List (α × List β))
    (st : GSState α β) (a : α) (b : β) : Prop :=
  b ∈ asPref asPrefs a ∧
  ∀ b0, st.engagements a = some b0 →
    idxOf b (asPref asPrefs a) < idxOf b0 (asPref asPrefs a)

/-- Loop invariant of the `gale_shapley` while-loop. -/
structure GSInv {α β : Type} [DecidableEq α] [DecidableEq β] (asPrefs : List (α × List β))
    (ipPrefs : List (β × List α)) (st : GSState α β) : Prop where
  link : ∀ x y, st.engagements x = some y ↔ st.proposals y = some x
  freeUnengaged : ∀ x ∈ st.free, st.engagements x = none
  freeNodup : st.free.Nodup
  freeMem : ∀ x ∈ st.free, x ∈ asPrefs.map Prod.fst
  engMem : ∀ x y, st.engagements x = some y →
    x ∈ asPrefs.map Prod.fst ∧ y ∈ ipPrefs.map Prod.fst
  covered : ∀ x ∈ asPrefs.map Prod.fst, x ∉ st.free →
    ∀ b, aWants asPrefs st x b → betterHolds ipPrefs st x b


theorem propose_cons_unclaimed {α β : Type} [DecidableEq α] [DecidableEq β]
    (ipPrefs : List (β × List α)) (a : α) (ip : β) (rest : List β) (st : GSState α β)
    (hP : st.proposals ip = none) :
    propose ipPrefs a (ip :: rest) st =
      { st with proposals := fupd st.proposals ip (some a)
                engagements := fupd st.engagements a (some ip) } := by
  unfold propose
  simp only [hP]

theorem propose_cons_displace {α β : Type} [DecidableEq α] [DecidableEq β]
    (ipPrefs : List (β × List α)) (a : α) (ip : β) (rest : List β) (st : GSState α β)
    (current : α) (hP : st.proposals ip = some current)
    (hlt : idxOf a (ipPref ipPrefs ip) < idxOf current (ipPref ipPrefs ip)) :
    propose ipPrefs a (ip :: rest) st =
      { free := st.free ++ [current]
        proposals := fupd st.proposals ip (some a)
        engagements := fupd (fupd st.engagements a (some ip)) current none } := by
  unfold propose
  simp only [hP]
  rw [if_pos hlt]

theorem propose_cons_reject {α β : Type} [DecidableEq α] [DecidableEq β]
    (ipPrefs : List (β × List α)) (a : α) (ip : β) (rest : List β) (st : GSState α β)
    (current : α) (hP : st.proposals ip = some current)
    (hge : ¬ idxOf a (ipPref ipPrefs ip) < idxOf current (ipPref ipPrefs ip)) :
    propose ipPrefs a (ip :: rest) st = propose ipPrefs a rest st := by
  conv_lhs => rw [propose]
  simp only [hP]
  rw [if_neg hge]

theorem propose_inv {α β : Type} [DecidableEq α] [DecidableEq β]
    {asPrefs : List (α × List β)} {ipPrefs : List (β × List α)}
    (wf : PrefsWF asPrefs ipPrefs) (a : α) (ha : a ∈ asPrefs.map Prod.fst) :
    ∀ (l l0 : List β) (st : GSState α β),
      asPref asPrefs a = l0 ++ l →
      (∀ b ∈ l0, betterHolds ipPrefs st a b) →
      (∀ x y, st.engagements x = some y ↔ st.proposals y = some x) →
      (∀ x ∈ st.free, st.engagements x = none) →
      st.free.Nodup →
      (∀ x ∈ st.free, x ∈ asPrefs.map Prod.fst) →
      (∀ x y, st.engagements x = some y →
        x ∈ asPrefs.map Prod.fst ∧ y ∈ ipPrefs.map Prod.fst) →
      (∀ x ∈ asPrefs.map Prod.fst, x ∉ st.free → x ≠ a →
        ∀ b, aWants asPrefs st x b → betterHolds ipPrefs st x b) →
      a ∉ st.free →
      st.engagements a = none →
      GSInv asPrefs ipPrefs (propose ipPrefs a l st)
  | [], l0, st, hsplit, hl0, hlink, hfreeE, hfnd, hfmem, hengmem, hcov, hafree, haeng => by
    refine ⟨hlink, hfreeE, hfnd, hfmem, hengmem, ?_⟩
    intro x hxR hxfree b hw
    by_cases hxa : x = a
    · have hxa2 : a = x := hxa.symm
      subst hxa2
      have hb : b ∈ l0 := by
        have hbm := hw.1
        rw [hsplit, List.append_nil] at hbm
        exact hbm
      exact hl0 b hb
    · exact hcov x hxR hxfree hxa b hw
  | ip :: rest, l0, st, hsplit, hl0, hlink, hfreeE, hfnd, hfmem, hengmem, hcov, hafree, haeng => by
    have hipmem : ip ∈ asPref asPrefs a := by
      rw [hsplit]
      exact List.mem_append_right l0 (List.mem_cons_self ip rest)
    have hipB : ip ∈ ipPrefs.map Prod.fst := ((asPref_perm wf ha).mem_iff).mp hipmem
    have hndpref : (asPref asPrefs a).Nodup := (asPref_perm wf ha).nodup_iff.mpr wf.2.1
    have hipnotl0 : ip ∉ l0 := by
      rw [hsplit] at hndpref
      rcases List.nodup_append.mp hndpref with ⟨-, -, hdisj⟩
      intro hc
      exact hdisj hc (List.mem_cons_self ip rest)
    have hidxip : idxOf ip (asPref asPrefs a) = l0.length := by
      rw [hsplit, idxOf_append_of_notMem ip l0 _ hipnotl0, idxOf_cons, if_pos rfl]
      omega
    rcases hP : st.proposals ip with _ | current
    · -- the block is unclaimed: the proposal is accepted
      rw [propose_cons_unclaimed ipPrefs a ip rest st hP]
      refine ⟨?_, ?_, hfnd, hfmem, ?_, ?_⟩
      · intro x y
        by_cases hx : x = a <;> by_cases hy : y = ip
        · have hx2 : a = x := hx.symm
          have hy2 : ip = y := hy.symm
          subst hx2
          subst hy2
          show fupd st.engagements a (some ip) a = some ip
            ↔ fupd st.proposals ip (some a) ip = some a
          rw [fupd_same, fupd_same]
          simp
        · have hx2 : a = x := hx.symm
          subst hx2
          show fupd st.engagements a (some ip) a = some y
            ↔ fupd st.proposals ip (some a) y = some a
          rw [fupd_same, fupd_ne st.proposals ip y _ hy]
          constructor
          · intro h
            exact ((hy (Option.some_inj.mp h).symm)).elim
          · intro h
            have h2 := (hlink a y).mpr h
            rw [haeng] at h2
            exact Option.noConfusion h2
        · have hy2 : ip = y := hy.symm
          subst hy2
          show fupd st.engagements a (some ip) x = some ip
            ↔ fupd st.proposals ip (some a) ip = some x
          rw [fupd_ne st.engagements a x _ hx, fupd_same]
          constructor
          · intro h
            have h2 := (hlink x ip).mp h
            rw [hP] at h2
            exact Option.noConfusion h2
          · intro h
            exact ((hx (Option.some_inj.mp h).symm)).elim
        · show fupd st.engagements a (some ip) x = some y
            ↔ fupd st.proposals ip (some a) y = some x
          rw [fupd_ne st.engagements a x _ hx, fupd_ne st.proposals ip y _ hy]
          exact hlink x y
      · intro x hxf
        have hxa : x ≠ a := fun hc => hafree (hc ▸ hxf)
        show fupd st.engagements a (some ip) x = none
        rw [fupd_ne st.engagements a x _ hxa]
        exact hfreeE x hxf
      · intro x y h
        by_cases hx : x = a
        · have hx2 : a = x := hx.symm
          subst hx2
          have h2 : some ip = some y := by
            rw [← fupd_same st.engagements a (some ip)]
            exact h
          rw [← Option.some_inj.mp h2]
          exact ⟨ha, hipB⟩
        · have h2 : st.engagements x = some y := by
            rw [← fupd_ne st.engagements a x (some ip) hx]
            exact h
          exact hengmem x y h2
      · intro x hxR hxf b hw
        by_cases hx : x = a
        · have hx2 : a = x := hx.symm
          subst hx2
          have heng : fupd st.engagements a (some ip) a = some ip := fupd_same _ _ _
          have hlt : idxOf b (asPref asPrefs a) < l0.length := by
            have h2 := hw.2 ip heng
            rwa [hidxip] at h2
          have hbl0 : b ∈ l0 := by
            rw [hsplit] at hlt
            exact mem_left_of_idxOf_lt b l0 (ip :: rest) hlt
          obtain ⟨c, hc, hcidx⟩ := hl0 b hbl0
          refine ⟨c, ?_, hcidx⟩
          have hbip : b ≠ ip := fun hc2 => hipnotl0 (hc2 ▸ hbl0)
          show fupd st.proposals ip (some a) b = some c
          rw [fupd_ne st.proposals ip b _ hbip]
          exact hc
        · have hwst : aWants asPrefs st x b := by
            refine ⟨hw.1, ?_⟩
            intro b0 hb0
            apply hw.2
            show fupd st.engagements a (some ip) x = some b0
            rw [fupd_ne st.engagements a x _ hx]
            exact hb0
          obtain ⟨c, hc, hcidx⟩ := hcov x hxR hxf hx b hwst
          refine ⟨c, ?_, hcidx⟩
          by_cases hbip : b = ip
          · rw [hbip, hP] at hc
            exact Option.noConfusion hc
          · show fupd st.proposals ip (some a) b = some c
            rw [fupd_ne st.proposals ip b _ hbip]
            exact hc
    · -- the block is claimed by `current`
      have hengc : st.engagements current = some ip := (hlink current ip).mpr hP
      have hcurfree : current ∉ st.free := by
        intro hc
        rw [hfreeE current hc] at hengc
        exact Option.noConfusion hengc
      have hca : current ≠ a := by
        intro hc
        rw [hc, haeng] at hengc
        exact Option.noConfusion hengc
      have hcurR : current ∈ asPrefs.map Prod.fst := (hengmem current ip hengc).1
      by_cases hguard : idxOf a (ipPref ipPrefs ip) < idxOf current (ipPref ipPrefs ip)
      · -- the block strictly prefers the proposer: displacement
        rw [propose_cons_displace ipPrefs a ip rest st current hP hguard]
        refine ⟨?_, ?_, ?_, ?_, ?_, ?_⟩
        · intro x y
          by_cases hxc : x = current
          · have hxc2 : current = x := hxc.symm
            subst hxc2
            show fupd (fupd st.engagements a (some ip)) current none current = some y
              ↔ fupd st.proposals ip (some a) y = some current
            rw [fupd_same]
            constructor
            · intro h
              exact Option.noConfusion h
            · intro h
              by_cases hy : y = ip
              · rw [hy, fupd_same] at h
                exact ((hca (Option.some_inj.mp h).symm)).elim
              · rw [fupd_ne st.proposals ip y _ hy] at h
                have h2 := (hlink current y).mpr h
                rw [hengc] at h2
                exact ((hy (Option.some_inj.mp h2).symm)).elim
          · by_cases hxa : x = a
            · have hxa2 : a = x := hxa.symm
              subst hxa2
              show fupd (fupd st.engagements a (some ip)) current none a = some y
                ↔ fupd st.proposals ip (some a) y = some a
              rw [fupd_ne _ current a _ (Ne.symm hca), fupd_same]
              by_cases hy : y = ip
              · have hy2 : ip = y := hy.symm
                subst hy2
                rw [fupd_same]
                simp
              · rw [fupd_ne st.proposals ip y _ hy]
                constructor
                · intro h
                  exact ((hy (Option.some_inj.mp h).symm)).elim
                · intro h
                  have h2 := (hlink a y).mpr h
                  rw [haeng] at h2
                  exact Option.noConfusion h2
            · show fupd (fupd st.engagements a (some ip)) current none x = some y
                ↔ fupd st.proposals ip (some a) y = some x
              rw [fupd_ne _ current x _ hxc, fupd_ne st.engagements a x _ hxa]
              by_cases hy : y = ip
              · have hy2 : ip = y := hy.symm
                subst hy2
                rw [fupd_same]
                constructor
                · intro h
                  have h2 := (hlink x ip).mp h
                  rw [hP] at h2
                  exact ((hxc (Option.some_inj.mp h2).symm)).elim
                · intro h
                  exact ((hxa (Option.some_inj.mp h).symm)).elim
              · rw [fupd_ne st.proposals ip y _ hy]
                exact hlink x y
        · intro x hxf
          have hxf2 : x ∈ st.free ++ [current] := hxf
          rcases List.mem_append.mp hxf2 with hxf3 | hxf3
          · have hxa : x ≠ a := fun hc => hafree (hc ▸ hxf3)
            have hxc : x ≠ current := fun hc => hcurfree (hc ▸ hxf3)
            show fupd (fupd st.engagements a (some ip)) current none x = none
            rw [fupd_ne _ current x _ hxc, fupd_ne st.engagements a x _ hxa]
            exact hfreeE x hxf3
          · have hxc : current = x := by
              have := List.mem_singleton.mp hxf3
              exact this.symm
            subst hxc
            show fupd (fupd st.engagements a (some ip)) current none current = none
            rw [fupd_same]
        · show (st.free ++ [current]).Nodup
          refine List.Nodup.append hfnd (List.nodup_singleton current) ?_
          intro x hx1 hx2
          have hx3 : x = current := List.mem_singleton.mp hx2
          exact hcurfree (hx3 ▸ hx1)
        · intro x hxf
          have hxf2 : x ∈ st.free ++ [current] := hxf
          rcases List.mem_append.mp hxf2 with hxf3 | hxf3
          · exact hfmem x hxf3
          · have hx3 : x = current := List.mem_singleton.mp hxf3
            exact hx3 ▸ hcurR
        · intro x y h
          by_cases hxc : x = current
          · rw [hxc] at h
            have h2 : (none : Option β) = some y := by
              rw [← fupd_same (fupd st.engagements a (some ip)) current none]
              exact h
            exact Option.noConfusion h2
          · by_cases hxa : x = a
            · have hxa2 : a = x := hxa.symm
              subst hxa2
              have h2 : some ip = some y := by
                rw [← fupd_same st.engagements a (some ip),
                  ← fupd_ne (fupd st.engagements a (some ip)) current a none (Ne.symm hca)]
                exact h
              rw [← Option.some_inj.mp h2]
              exact ⟨ha, hipB⟩
            · have h2 : st.engagements x = some y := by
                rw [← fupd_ne st.engagements a x (some ip) hxa,
                  ← fupd_ne (fupd st.engagements a (some ip)) current x none hxc]
                exact h
              exact hengmem x y h2
        · intro x hxR hxf b hw
          have hxfree : x ∉ st.free := fun hc =>
            hxf (List.mem_append_left _ hc)
          have hxc : x ≠ current := by
            intro hc
            exact hxf (List.mem_append_right _ (by rw [hc]; exact List.mem_singleton.mpr rfl))
          by_cases hxa : x = a
          · have hxa2 : a = x := hxa.symm
            subst hxa2
            have heng : fupd (fupd st.engagements a (some ip)) current none a = some ip := by
              rw [fupd_ne _ current a _ (Ne.symm hca), fupd_same]
            have hlt : idxOf b (asPref asPrefs a) < l0.length := by
              have h2 := hw.2 ip heng
              rwa [hidxip] at h2
            have hbl0 : b ∈ l0 := by
              rw [hsplit] at hlt
              exact mem_left_of_idxOf_lt b l0 (ip :: rest) hlt
            obtain ⟨c, hc, hcidx⟩ := hl0 b hbl0
            refine ⟨c, ?_, hcidx⟩
            have hbip : b ≠ ip := fun hc2 => hipnotl0 (hc2 ▸ hbl0)
            show fupd st.proposals ip (some a) b = some c
            rw [fupd_ne st.proposals ip b _ hbip]
            exact hc
          · have hwst : aWants asPrefs st x b := by
              refine ⟨hw.1, ?_⟩
              intro b0 hb0
              apply hw.2
              show fupd (fupd st.engagements a (some ip)) current none x = some b0
              rw [fupd_ne _ current x _ hxc, fupd_ne st.engagements a x _ hxa]
              exact hb0
            obtain ⟨c, hc, hcidx⟩ := hcov x hxR hxfree hxa b hwst
            by_cases hbip : b = ip
            · rw [hbip, hP] at hc
              have hceq : current = c := Option.some_inj.mp hc
              refine ⟨a, ?_, ?_⟩
              · rw [hbip]
                show fupd st.proposals ip (some a) ip = some a
                rw [fupd_same]
              · rw [← hceq] at hcidx
                rw [hbip] at hcidx ⊢
                omega
            · refine ⟨c, ?_, hcidx⟩
              show fupd st.proposals ip (some a) b = some c
              rw [fupd_ne st.proposals ip b _ hbip]
              exact hc
      · -- the block keeps its holder: the proposer moves on
        rw [propose_cons_reject ipPrefs a ip rest st current hP hguard]
        refine propose_inv wf a ha rest (l0 ++ [ip]) st ?_ ?_ hlink hfreeE hfnd hfmem
          hengmem hcov hafree haeng
        · rw [hsplit]
          simp
        · intro b hb
          rcases List.mem_append.mp hb with hb | hb
          · exact hl0 b hb
          · have hbip : ip = b := (List.mem_singleton.mp hb).symm
            subst hbip
            have haipmem : a ∈ ipPref ipPrefs ip := ((ipPref_perm wf hipB).mem_iff).mpr ha
            have hcipmem : current ∈ ipPref ipPrefs ip :=
              ((ipPref_perm wf hipB).mem_iff).mpr hcurR
            refine ⟨current, hP, ?_⟩
            have hne : idxOf current (ipPref ipPrefs ip) ≠ idxOf a (ipPref ipPrefs ip) :=
              fun he => hca (idxOf_inj current a _ hcipmem haipmem he)
            omega

theorem gsRun_succ_nil {α β : Type} [DecidableEq α] [DecidableEq β]
    (asPrefs : List (α × List β)) (ipPrefs : List (β × List α)) (fuel : Nat)
    (st : GSState α β) (hf : st.free = []) :
    gsRun asPrefs ipPrefs (fuel + 1) st = st := by
  conv_lhs => rw [gsRun]
  rw [hf]

theorem gsRun_succ_cons {α β : Type} [DecidableEq α] [DecidableEq β]
    (asPrefs : List (α × List β)) (ipPrefs : List (β × List α)) (fuel : Nat)
    (st : GSState α β) (as_id : α) (rest : List α) (hf : st.free = as_id :: rest) :
    gsRun asPrefs ipPrefs (fuel + 1) st
      = gsRun asPrefs ipPrefs fuel
          (propose ipPrefs as_id (asPref asPrefs as_id) { st with free := rest }) := by
  conv_lhs => rw [gsRun]
  rw [hf]

theorem gsRun_inv {α β : Type} [DecidableEq α] [DecidableEq β]
    {asPrefs : List (α × List β)} {ipPrefs : List (β × List α)}
    (wf : PrefsWF asPrefs ipPrefs) :
    ∀ (fuel : Nat) (st : GSState α β), GSInv asPrefs ipPrefs st →
      GSInv asPrefs ipPrefs (gsRun asPrefs ipPrefs fuel st)
  | 0, st, hInv => hInv
  | fuel + 1, st, hInv => by
    rcases hf : st.free with _ | ⟨as_id, rest⟩
    · rw [gsRun_succ_nil asPrefs ipPrefs fuel st hf]
      exact hInv
    · rw [gsRun_succ_cons asPrefs ipPrefs fuel st as_id rest hf]
      apply gsRun_inv wf fuel
      have hamem : as_id ∈ asPrefs.map Prod.fst :=
        hInv.freeMem as_id (by rw [hf]; exact List.mem_cons_self _ _)
      have hanotin : as_id ∉ rest := by
        have hnd := hInv.freeNodup
        rw [hf] at hnd
        exact (List.nodup_cons.mp hnd).1
      have haeng : st.engagements as_id = none :=
        hInv.freeUnengaged as_id (by rw [hf]; exact List.mem_cons_self _ _)
      refine propose_inv wf as_id hamem (asPref asPrefs as_id) [] { st with free := rest }
        rfl ?_ ?_ ?_ ?_ ?_ ?_ ?_ ?_ ?_
      · intro b hb
        exact absurd hb (List.not_mem_nil b)
      · exact hInv.link
      · intro x hx
        exact hInv.freeUnengaged x (by rw [hf]; exact List.mem_cons_of_mem _ hx)
      · have hnd := hInv.freeNodup
        rw [hf] at hnd
        exact (List.nodup_cons.mp hnd).2
      · intro x hx
        exact hInv.freeMem x (by rw [hf]; exact List.mem_cons_of_mem _ hx)
      · exact hInv.engMem
      · intro x hxR hxfree hxa b hwb
        have hxf : x ∉ st.free := by
          rw [hf]
          intro hc
          rcases List.mem_cons.mp hc with hc | hc
          · exact hxa hc
          · exact hxfree hc
        exact hInv.covered x hxR hxf b hwb
      · exact hanotin
      · exact haeng

theorem init_inv {α β : Type} [DecidableEq α] [DecidableEq β]
    {asPrefs : List (α × List β)} {ipPrefs : List (β × List α)}
    (wf : PrefsWF asPrefs ipPrefs) : GSInv asPrefs ipPrefs (initState asPrefs) := by
  refine ⟨?_, ?_, ?_, ?_, ?_, ?_⟩
  · intro x y
    constructor
    · intro h
      exact Option.noConfusion h
    · intro h
      exact Option.noConfusion h
  · intro x _
    rfl
  · exact wf.1
  · intro x hx
    exact hx
  · intro x y h
    exact Option.noConfusion h
  · intro x hxR hxfree _ _
    exact (hxfree hxR).elim

/-- A valid matching for the given preference maps: matched entities are
among the known requesters and blocks, and no block is assigned to two
requesters. -/
def isMatchingOf {α β : Type} (asPrefs : List (α × List β)) (ipPrefs : List (β × List α))
    (M : α → Option β) : Prop :=
  (∀ a b, M a = some b → a ∈ asPrefs.map Prod.fst ∧ b ∈ ipPrefs.map Prod.fst) ∧
  (∀ a1 a2 b, M a1 = some b → M a2 = some b → a1 = a2)

/-- Requester `a` and block `b` form a blocking pair for `M`: they are not
matched to each other, `a` prefers `b` to its current match (or is
unmatched), and `b` prefers `a` to its current holder (or is unclaimed). -/
def isBlockingPair {α β : Type} [DecidableEq α] [DecidableEq β]
    (asPrefs : List (α × List β)) (ipPrefs : List (β × List α))
    (M : α → Option β) (a : α) (b : β) : Prop :=
  a ∈ asPrefs.map Prod.fst ∧ b ∈ ipPrefs.map Prod.fst ∧ M a ≠ some b ∧
  (∀ b0, M a = some b0 → idxOf b (asPref asPrefs a) < idxOf b0 (asPref asPrefs a)) ∧
  (∀ a2, M a2 = some b → idxOf a (ipPref ipPrefs b) < idxOf a2 (ipPref ipPrefs b))

/-- A stable matching: a valid matching with no blocking pair. -/
def isStableMatching {α β : Type} [DecidableEq α] [DecidableEq β]
    (asPrefs : List (α × List β)) (ipPrefs : List (β × List α))
    (M : α → Option β) : Prop :=
  isMatchingOf asPrefs ipPrefs M ∧
  ∀ a b, ¬ isBlockingPair asPrefs ipPrefs M a b

theorem gs_stable_aux {α β : Type} [DecidableEq α] [DecidableEq β]
    {asPrefs : List (α × List β)} {ipPrefs : List (β × List α)}
    (wf : PrefsWF asPrefs ipPrefs) :
    isStableMatching asPrefs ipPrefs (gale_shapley asPrefs ipPrefs) := by
  have hInv := gsRun_inv wf (gsFuel asPrefs ipPrefs) (initState asPrefs) (init_inv wf)
  have hfree := gale_shapley_drained asPrefs ipPrefs wf.2.1
  constructor
  · constructor
    · intro a b h
      exact hInv.engMem a b h
    · intro a1 a2 b h1 h2
      have p1 := (hInv.link a1 b).mp h1
      have p2 := (hInv.link a2 b).mp h2
      rw [p1] at p2
      exact Option.some_inj.mp p2
  · intro a b hblock
    obtain ⟨haR, hbB, _, hprefA, hprefB⟩ := hblock
    have hnotfree : a ∉ (gsRun asPrefs ipPrefs (gsFuel asPrefs ipPrefs)
        (initState asPrefs)).free := by
      rw [hfree]
      exact List.not_mem_nil a
    have hbmem : b ∈ asPref asPrefs a := ((asPref_perm wf haR).mem_iff).mpr hbB
    have hw : aWants asPrefs
        (gsRun asPrefs ipPrefs (gsFuel asPrefs ipPrefs) (initState asPrefs)) a b :=
      ⟨hbmem, fun b0 hb0 => hprefA b0 hb0⟩
    obtain ⟨c, hc, hlt⟩ := hInv.covered a haR hnotfree b hw
    have hcm : gale_shapley asPrefs ipPrefs c = some b := (hInv.link c b).mpr hc
    have hgt := hprefB c hcm
    omega

/-- Optimality invariant: no requester with an achievable partner (a block
matched to it in some stable matching) has yet been passed over by that
block: the block's current holder is never strictly preferred to such a
requester. -/
def OptInv {α β : Type} [DecidableEq α] [DecidableEq β] (asPrefs : List (α × List β))
    (ipPrefs : List (β × List α)) (st : GSState α β) : Prop :=
  ∀ M, isStableMatching asPrefs ipPrefs M → ∀ x b, M x = some b →
    ¬ betterHolds ipPrefs st x b

theorem opt_after_engage {α β : Type} [DecidableEq α] [DecidableEq β]
    {asPrefs : List (α × List β)} {ipPrefs : List (β × List α)}
    (wf : PrefsWF asPrefs ipPrefs) (a : α) (ha : a ∈ asPrefs.map Prod.fst)
    (l0 : List β) (ip : β) (rest : List β) (st : GSState α β)
    (hsplit : asPref asPrefs a = l0 ++ ip :: rest)
    (hl0 : ∀ b ∈ l0, betterHolds ipPrefs st a b)
    (hJ : OptInv asPrefs ipPrefs st) :
    ∀ M, isStableMatching asPrefs ipPrefs M → ∀ x b, M x = some b →
      ¬ ∃ c, fupd st.proposals ip (some a) b = some c ∧
        idxOf c (ipPref ipPrefs b) < idxOf x (ipPref ipPrefs b) := by
  intro M hM x b hMx hex
  obtain ⟨c, hc, hlt⟩ := hex
  by_cases hbip : ip = b
  · subst hbip
    rw [fupd_same] at hc
    have hac : a = c := Option.some_inj.mp hc
    rw [← hac] at hlt
    have hipmem : ip ∈ asPref asPrefs a := by
      rw [hsplit]
      exact List.mem_append_right l0 (List.mem_cons_self ip rest)
    have hipB : ip ∈ ipPrefs.map Prod.fst := ((asPref_perm wf ha).mem_iff).mp hipmem
    have hndpref : (asPref asPrefs a).Nodup := (asPref_perm wf ha).nodup_iff.mpr wf.2.1
    have hipnotl0 : ip ∉ l0 := by
      rw [hsplit] at hndpref
      rcases List.nodup_append.mp hndpref with ⟨-, -, hdisj⟩
      intro hcon
      exact hdisj hcon (List.mem_cons_self ip rest)
    have hidxip : idxOf ip (asPref asPrefs a) = l0.length := by
      rw [hsplit, idxOf_append_of_notMem ip l0 _ hipnotl0, idxOf_cons, if_pos rfl]
      omega
    have hxa : x ≠ a := by
      intro he
      rw [he] at hlt
      omega
    apply hM.2 a ip
    refine ⟨ha, hipB, ?_, ?_, ?_⟩
    · intro hc2
      exact hxa (hM.1.2 x a ip hMx hc2)
    · intro b0 hb0
      by_contra hcon
      push_neg at hcon
      have hb0B : b0 ∈ ipPrefs.map Prod.fst := (hM.1.1 a b0 hb0).2
      have hb0mem : b0 ∈ asPref asPrefs a := ((asPref_perm wf ha).mem_iff).mpr hb0B
      have hb0ip : b0 ≠ ip := by
        intro he
        rw [he] at hb0
        exact hxa (hM.1.2 x a ip hMx hb0)
      have hneq : idxOf b0 (asPref asPrefs a) ≠ idxOf ip (asPref asPrefs a) :=
        fun he => hb0ip (idxOf_inj b0 ip _ hb0mem hipmem he)
      have hb0lt : idxOf b0 (asPref asPrefs a) < l0.length := by
        rw [← hidxip]
        omega
      have hb0l0 : b0 ∈ l0 := by
        rw [hsplit] at hb0lt
        exact mem_left_of_idxOf_lt b0 l0 (ip :: rest) hb0lt
      exact hJ M hM a b0 hb0 (hl0 b0 hb0l0)
    · intro a2 ha2
      have he : a2 = x := hM.1.2 a2 x ip ha2 hMx
      rw [he]
      exact hlt
  · rw [fupd_ne st.proposals ip b _ (fun he => hbip he.symm)] at hc
    exact hJ M hM x b hMx ⟨c, hc, hlt⟩

theorem propose_opt {α β : Type} [DecidableEq α] [DecidableEq β]
    {asPrefs : List (α × List β)} {ipPrefs : List (β × List α)}
    (wf : PrefsWF asPrefs ipPrefs) (a : α) (ha : a ∈ asPrefs.map Prod.fst) :
    ∀ (l l0 : List β) (st : GSState α β),
      asPref asPrefs a = l0 ++ l →
      (∀ b ∈ l0, betterHolds ipPrefs st a b) →
      (∀ x y, st.engagements x = some y ↔ st.proposals y = some x) →
      st.engagements a = none →
      (∀ x y, st.engagements x = some y →
        x ∈ asPrefs.map Prod.fst ∧ y ∈ ipPrefs.map Prod.fst) →
      OptInv asPrefs ipPrefs st →
      OptInv asPrefs ipPrefs (propose ipPrefs a l st)
  | [], _, st, _, _, _, _, _, hJ => hJ
  | ip :: rest, l0, st, hsplit, hl0, hlink, haeng, hengmem, hJ => by
    have hipmem : ip ∈ asPref asPrefs a := by
      rw [hsplit]
      exact List.mem_append_right l0 (List.mem_cons_self ip rest)
    have hipB : ip ∈ ipPrefs.map Prod.fst := ((asPref_perm wf ha).mem_iff).mp hipmem
    rcases hP : st.proposals ip with _ | current
    · rw [propose_cons_unclaimed ipPrefs a ip rest st hP]
      intro M hM x b hMx hbet
      exact opt_after_engage wf a ha l0 ip rest st hsplit hl0 hJ M hM x b hMx hbet
    · by_cases hguard : idxOf a (ipPref ipPrefs ip) < idxOf current (ipPref ipPrefs ip)
      · rw [propose_cons_displace ipPrefs a ip rest st current hP hguard]
        intro M hM x b hMx hbet
        exact opt_after_engage wf a ha l0 ip rest st hsplit hl0 hJ M hM x b hMx hbet
      · rw [propose_cons_reject ipPrefs a ip rest st current hP hguard]
        refine propose_opt wf a ha rest (l0 ++ [ip]) st ?_ ?_ hlink haeng hengmem hJ
        · rw [hsplit]
          simp
        · intro b hb
          rcases List.mem_append.mp hb with hb | hb
          · exact hl0 b hb
          · have hbip : ip = b := (List.mem_singleton.mp hb).symm
            subst hbip
            have hengc : st.engagements current = some ip := (hlink current ip).mpr hP
            have hca : current ≠ a := by
              intro hce
              rw [hce, haeng] at hengc
              exact Option.noConfusion hengc
            have hcurR : current ∈ asPrefs.map Prod.fst := (hengmem current ip hengc).1
            have haipmem : a ∈ ipPref ipPrefs ip := ((ipPref_perm wf hipB).mem_iff).mpr ha
            have hcipmem : current ∈ ipPref ipPrefs ip :=
              ((ipPref_perm wf hipB).mem_iff).mpr hcurR
            refine ⟨current, hP, ?_⟩
            have hne : idxOf current (ipPref ipPrefs ip) ≠ idxOf a (ipPref ipPrefs ip) :=
              fun he => hca (idxOf_inj current a _ hcipmem haipmem he)
            omega

theorem step_inv {α β : Type} [DecidableEq α] [DecidableEq β]
    {asPrefs : List (α × List β)} {ipPrefs : List (β × List α)}
    (wf : PrefsWF asPrefs ipPrefs) (st : GSState α β) (as_id : α) (rest : List α)
    (hf : st.free = as_id :: rest) (hInv : GSInv asPrefs ipPrefs st) :
    GSInv asPrefs ipPrefs
      (propose ipPrefs as_id (asPref asPrefs as_id) { st with free := rest }) := by
  have hamem : as_id ∈ asPrefs.map Prod.fst :=
    hInv.freeMem as_id (by rw [hf]; exact List.mem_cons_self _ _)
  have hanotin : as_id ∉ rest := by
    have hnd := hInv.freeNodup
    rw [hf] at hnd
    exact (List.nodup_cons.mp hnd).1
  have haeng : st.engagements as_id = none :=
    hInv.freeUnengaged as_id (by rw [hf]; exact List.mem_cons_self _ _)
  refine propose_inv wf as_id hamem (asPref asPrefs as_id) [] { st with free := rest }
    rfl ?_ ?_ ?_ ?_ ?_ ?_ ?_ ?_ ?_
  · intro b hb
    exact absurd hb (List.not_mem_nil b)
  · exact hInv.link
  · intro x hx
    exact hInv.freeUnengaged x (by rw [hf]; exact List.mem_cons_of_mem _ hx)
  · have hnd := hInv.freeNodup
    rw [hf] at hnd
    exact (List.nodup_cons.mp hnd).2
  · intro x hx
    exact hInv.freeMem x (by rw [hf]; exact List.mem_cons_of_mem _ hx)
  · exact hInv.engMem
  · intro x hxR hxfree hxa b hwb
    have hxf : x ∉ st.free := by
      rw [hf]
      intro hc
      rcases List.mem_cons.mp hc with hc | hc
      · exact hxa hc
      · exact hxfree hc
    exact hInv.covered x hxR hxf b hwb
  · exact hanotin
  · exact haeng

theorem gsRun_opt {α β : Type} [DecidableEq α] [DecidableEq β]
    {asPrefs : List (α × List β)} {ipPrefs : List (β × List α)}
    (wf : PrefsWF asPrefs ipPrefs) :
    ∀ (fuel : Nat) (st : GSState α β), GSInv asPrefs ipPrefs st →
      OptInv asPrefs ipPrefs st →
      OptInv asPrefs ipPrefs (gsRun asPrefs ipPrefs fuel st)
  | 0, _, _, hJ => hJ
  | fuel + 1, st, hInv, hJ => by
    rcases hf : st.free with _ | ⟨as_id, rest⟩
    · rw [gsRun_succ_nil asPrefs ipPrefs fuel st hf]
      exact hJ
    · rw [gsRun_succ_cons asPrefs ipPrefs fuel st as_id rest hf]
      have hamem : as_id ∈ asPrefs.map Prod.fst :=
        hInv.freeMem as_id (by rw [hf]; exact List.mem_cons_self _ _)
      have haeng : st.engagements as_id = none :=
        hInv.freeUnengaged as_id (by rw [hf]; exact List.mem_cons_self _ _)
      refine gsRun_opt wf fuel _ (step_inv wf st as_id rest hf hInv) ?_
      refine propose_opt wf as_id hamem (asPref asPrefs as_id) [] { st with free := rest }
        rfl ?_ hInv.link haeng hInv.engMem hJ
      intro b hb
      exact absurd hb (List.not_mem_nil b)

theorem init_opt {α β : Type} [DecidableEq α] [DecidableEq β]
    {asPrefs : List (α × List β)} {ipPrefs : List (β × List α)} :
    OptInv asPrefs ipPrefs (initState asPrefs) := by
  intro M _ x b _ hbet
  obtain ⟨c, hc, -⟩ := hbet
  exact Option.noConfusion hc

theorem gs_optimal_aux {α β : Type} [DecidableEq α] [DecidableEq β]
    {asPrefs : List (α × List β)} {ipPrefs : List (β × List α)}
    (wf : PrefsWF asPrefs ipPrefs) :
    ∀ M, isStableMatching asPrefs ipPrefs M →
      (∀ a bg bm, gale_shapley asPrefs ipPrefs a = some bg → M a = some bm →
        idxOf bg (asPref asPrefs a) ≤ idxOf bm (asPref asPrefs a)) ∧
      (∀ a, gale_shapley asPrefs ipPrefs a = none → M a = none) := by
  have hInv := gsRun_inv wf (gsFuel asPrefs ipPrefs) (initState asPrefs) (init_inv wf)
  have hJ := gsRun_opt wf (gsFuel asPrefs ipPrefs) (initState asPrefs) (init_inv wf) init_opt
  have hfree := gale_shapley_drained asPrefs ipPrefs wf.2.1
  intro M hM
  constructor
  · intro a bg bm hg hm
    by_contra hcon
    push_neg at hcon
    have hg2 : (gsRun asPrefs ipPrefs (gsFuel asPrefs ipPrefs)
        (initState asPrefs)).engagements a = some bg := hg
    have haR : a ∈ asPrefs.map Prod.fst := (hInv.engMem a bg hg2).1
    have hbmB : bm ∈ ipPrefs.map Prod.fst := (hM.1.1 a bm hm).2
    have hbmmem : bm ∈ asPref asPrefs a := ((asPref_perm wf haR).mem_iff).mpr hbmB
    have hnotfree : a ∉ (gsRun asPrefs ipPrefs (gsFuel asPrefs ipPrefs)
        (initState asPrefs)).free := by
      rw [hfree]
      exact List.not_mem_nil a
    have hw : aWants asPrefs
        (gsRun asPrefs ipPrefs (gsFuel asPrefs ipPrefs) (initState asPrefs)) a bm := by
      refine ⟨hbmmem, ?_⟩
      intro b0 hb0
      rw [hg2] at hb0
      rw [← Option.some_inj.mp hb0]
      exact hcon
    exact hJ M hM a bm hm (hInv.covered a haR hnotfree bm hw)
  · intro a hg
    by_cases hMa : M a = none
    · exact hMa
    · exfalso
      obtain ⟨bm, hm⟩ := Option.ne_none_iff_exists'.mp hMa
      have hg2 : (gsRun asPrefs ipPrefs (gsFuel asPrefs ipPrefs)
          (initState asPrefs)).engagements a = none := hg
      have haR : a ∈ asPrefs.map Prod.fst := (hM.1.1 a bm hm).1
      have hbmB : bm ∈ ipPrefs.map Prod.fst := (hM.1.1 a bm hm).2
      have hbmmem : bm ∈ asPref asPrefs a := ((asPref_perm wf haR).mem_iff).mpr hbmB
      have hnotfree : a ∉ (gsRun asPrefs ipPrefs (gsFuel asPrefs ipPrefs)
          (initState asPrefs)).free := by
        rw [hfree]
        exact List.not_mem_nil a
      have hw : aWants asPrefs
          (gsRun asPrefs ipPrefs (gsFuel asPrefs ipPrefs) (initState asPrefs)) a bm := by
        refine ⟨hbmmem, ?_⟩
        intro b0 hb0
        rw [hg2] at hb0
        exact Option.noConfusion hb0
      exact hJ M hM a bm hm (hInv.covered a haR hnotfree bm hw)

/-- Event-logging twin of `propose`: same state transformation, and
additionally the list of proposals made during the scan, in order (one
`(requester, block)` event per iteration of the inner `for` loop). -/
def proposeEv {α β : Type} [DecidableEq α] [DecidableEq β] (ipPrefs : List (β × List α))
    (as_id : α) : List β → GSState α β → GSState α β × List (α × β)
  | [], st => (st, [])
  | ip :: rest, st =>
    match st.proposals ip with
    | none =>
      ({ st with
         proposals := fupd st.proposals ip (some as_id)
         engagements := fupd st.engagements as_id (some ip) }, [(as_id, ip)])
    | some current_as =>
      if idxOf as_id (ipPref ipPrefs ip) < idxOf current_as (ipPref ipPrefs ip) then
        ({ free := st.free ++ [current_as]
           proposals := fupd st.proposals ip (some as_id)
           engagements := fupd (fupd st.engagements as_id (some ip)) current_as none },
         [(as_id, ip)])
      else
        let r := proposeEv ipPrefs as_id rest st
        (r.1, (as_id, ip) :: r.2)

/-- Event-logging twin of `gsRun`: the final state together with every
proposal made over the whole run. -/
def gsRunEv {α β : Type} [DecidableEq α] [DecidableEq β] (asPrefs : List (α × List β))
    (ipPrefs : List (β × List α)) : Nat → GSState α β → GSState α β × List (α × β)
  | 0, st => (st, [])
  | fuel + 1, st =>
    match st.free with
    | [] => (st, [])
    | as_id :: rest =>
      let r1 := proposeEv ipPrefs as_id (asPref asPrefs as_id) { st with free := rest }
      let r2 := gsRunEv asPrefs ipPrefs fuel r1.1
      (r2.1, r1.2 ++ r2.2)

/-- All proposal attempts performed by one run of `gale_shapley`. -/
def gsEvents {α β : Type} [DecidableEq α] [DecidableEq β] (asPrefs : List (α × List β))
    (ipPrefs : List (β × List α)) : List (α × β) :=
  (gsRunEv asPrefs ipPrefs (gsFuel asPrefs ipPrefs) (initState asPrefs)).2

theorem proposeEv_fst {α β : Type} [DecidableEq α] [DecidableEq β]
    (ipPrefs : List (β × List α)) (as_id : α) :
    ∀ (l : List β) (st : GSState α β),
      (proposeEv ipPrefs as_id l st).1 = propose ipPrefs as_id l st
  | [], _ => rfl
  | ip :: rest, st => by
    rcases hP : st.proposals ip with _ | current
    · simp [proposeEv, propose, hP]
    · by_cases hg : idxOf as_id (ipPref ipPrefs ip) < idxOf current (ipPref ipPrefs ip)
      · simp [proposeEv, propose, hP, hg]
      · simp [proposeEv, propose, hP, hg, proposeEv_fst ipPrefs as_id rest st]

theorem gsRunEv_fst {α β : Type} [DecidableEq α] [DecidableEq β]
    (asPrefs : List (α × List β)) (ipPrefs : List (β × List α)) :
    ∀ (fuel : Nat) (st : GSState α β),
      (gsRunEv asPrefs ipPrefs fuel st).1 = gsRun asPrefs ipPrefs fuel st
  | 0, _ => rfl
  | fuel + 1, st => by
    rcases hf : st.free with _ | ⟨as_id, rest⟩
    · conv_lhs => rw [gsRunEv]
      conv_rhs => rw [gsRun]
      rw [hf]
    · conv_lhs => rw [gsRunEv]
      conv_rhs => rw [gsRun]
      rw [hf]
      simp only
      rw [proposeEv_fst, gsRunEv_fst asPrefs ipPrefs fuel]

theorem gsRunEv_succ_nil {α β : Type} [DecidableEq α] [DecidableEq β]
    (asPrefs : List (α × List β)) (ipPrefs : List (β × List α)) (fuel : Nat)
    (st : GSState α β) (hf : st.free = []) :
    gsRunEv asPrefs ipPrefs (fuel + 1) st = (st, []) := by
  conv_lhs => rw [gsRunEv]
  rw [hf]

theorem gsRunEv_succ_cons {α β : Type} [DecidableEq α] [DecidableEq β]
    (asPrefs : List (α × List β)) (ipPrefs : List (β × List α)) (fuel : Nat)
    (st : GSState α β) (as_id : α) (rest : List α) (hf : st.free = as_id :: rest) :
    gsRunEv asPrefs ipPrefs (fuel + 1) st
      = ((gsRunEv asPrefs ipPrefs fuel
            (proposeEv ipPrefs as_id (asPref asPrefs as_id) { st with free := rest }).1).1,
         (proposeEv ipPrefs as_id (asPref asPrefs as_id) { st with free := rest }).2
           ++ (gsRunEv asPrefs ipPrefs fuel
                (proposeEv ipPrefs as_id (asPref asPrefs as_id) { st with free := rest }).1).2) := by
  conv_lhs => rw [gsRunEv]
  rw [hf]

theorem proposeEv_prefix {α β : Type} [DecidableEq α] [DecidableEq β]
    (ipPrefs : List (β × List α)) (as_id : α) :
    ∀ (l : List β) (st : GSState α β), ∃ j,
      (proposeEv ipPrefs as_id l st).2 = (l.take j).map fun b => (as_id, b)
  | [], _ => ⟨0, rfl⟩
  | ip :: rest, st => by
    rcases hP : st.proposals ip with _ | current
    · exact ⟨1, by simp [proposeEv, hP]⟩
    · by_cases hg : idxOf as_id (ipPref ipPrefs ip) < idxOf current (ipPref ipPrefs ip)
      · exact ⟨1, by simp [proposeEv, hP, hg]⟩
      · obtain ⟨j, hj⟩ := proposeEv_prefix ipPrefs as_id rest st
        exact ⟨j + 1, by simp [proposeEv, hP, hg, hj]⟩

theorem proposeEv_len {α β : Type} [DecidableEq α] [DecidableEq β]
    (ipPrefs : List (β × List α)) (as_id : α) (l : List β) (st : GSState α β) :
    (proposeEv ipPrefs as_id l st).2.length ≤ l.length := by
  obtain ⟨j, hj⟩ := proposeEv_prefix ipPrefs as_id l st
  rw [hj, List.length_map, List.length_take]
  omega

theorem asPref_len_le {α β : Type} [DecidableEq α] {asPrefs : List (α × List β)}
    {ipPrefs : List (β × List α)} (wf : PrefsWF asPrefs ipPrefs) (a : α) :
    (asPref asPrefs a).length ≤ ipPrefs.length := by
  unfold asPref
  rcases hl : alookup a asPrefs with _ | v
  · simp
  · have hmem := alookup_mem a v asPrefs hl
    have hperm := wf.2.2.1 (a, v) hmem
    simp only [Option.getD_some]
    rw [hperm.length_eq]
    simp

theorem gsRunEv_len {α β : Type} [DecidableEq α] [DecidableEq β]
    {asPrefs : List (α × List β)} {ipPrefs : List (β × List α)}
    (wf : PrefsWF asPrefs ipPrefs) :
    ∀ (fuel : Nat) (st : GSState α β),
      (gsRunEv asPrefs ipPrefs fuel st).2.length ≤ fuel * ipPrefs.length
  | 0, _ => by simp [gsRunEv]
  | fuel + 1, st => by
    rcases hf : st.free with _ | ⟨as_id, rest⟩
    · rw [gsRunEv_succ_nil asPrefs ipPrefs fuel st hf]
      simp
    · rw [gsRunEv_succ_cons asPrefs ipPrefs fuel st as_id rest hf]
      simp only [List.length_append]
      have h1 := proposeEv_len ipPrefs as_id (asPref asPrefs as_id) { st with free := rest }
      have h2 := asPref_len_le wf as_id
      have h3 := gsRunEv_len wf fuel
        (proposeEv ipPrefs as_id (asPref asPrefs as_id) { st with free := rest }).1
      have : (fuel + 1) * ipPrefs.length = ipPrefs.length + fuel * ipPrefs.length := by ring
      omega

theorem sum_map_const_of {γ : Type} (c : Nat) :
    ∀ (l : List γ) (f : γ → Nat), (∀ x ∈ l, f x = c) → (l.map f).sum = l.length * c
  | [], _, _ => by simp
  | x :: xs, f, h => by
    rw [List.map_cons, List.sum_cons,
      sum_map_const_of c xs f (fun y hy => h y (List.mem_cons_of_mem _ hy)),
      h x (List.mem_cons_self _ _), List.length_cons]
    ring

theorem gsFuel_of_wf {α β : Type} {asPrefs : List (α × List β)}
    {ipPrefs : List (β × List α)} (wf : PrefsWF asPrefs ipPrefs) :
    gsFuel asPrefs ipPrefs = asPrefs.length + ipPrefs.length * (asPrefs.length + 1) := by
  unfold gsFuel
  rw [sum_map_const_of (asPrefs.length + 1) ipPrefs _ ?_]
  intro p hp
  have hperm := wf.2.2.2 p hp
  rw [hperm.length_eq]
  simp

/-- Two requesters, two blocks; every list complete. -/
def exAs : List (Nat × List Nat) := [(0, [10, 11]), (1, [10, 11])]

/-- Block preferences for `exAs`. -/
def exIp : List (Nat × List Nat) := [(10, [0, 1]), (11, [0, 1])]

/-- Three requesters, two blocks, with both blocks ranking the requesters in
the same order; displaced requesters re-scan their lists, so requester 0
proposes to block 10 three times over the run. -/
def ex2As : List (Nat × List Nat) := [(0, [10, 11]), (1, [10, 11]), (2, [10, 11])]

/-- Block preferences for `ex2As`. -/
def ex2Ip : List (Nat × List Nat) := [(10, [2, 1, 0]), (11, [2, 1, 0])]

theorem exAs_wf : PrefsWF exAs exIp :=
  ⟨by decide, by decide, by decide, by decide⟩

theorem ex2As_wf : PrefsWF ex2As ex2Ip :=
  ⟨by decide, by decide, by decide, by decide⟩

/-- C1: for well-formed, complete preference maps, the matching returned by
`gale_shapley` is stable: no requester-block pair not matched to each other
is such that the requester prefers the block to its current match (or is
unmatched) while the block prefers the requester to its current holder (or
is unclaimed). -/
theorem gale_shapley_stable {α β : Type} [DecidableEq α] [DecidableEq β]
    {asPrefs : List (α × List β)} {ipPrefs : List (β × List α)}
    (wf : PrefsWF asPrefs ipPrefs) :
    ∀ a b, ¬ isBlockingPair asPrefs ipPrefs (gale_shapley asPrefs ipPrefs) a b :=
  (gs_stable_aux wf).2

/-- C1 witness: the stability theorem applied to a concrete two-by-two
instance at the pair (requester 0, block 10). -/
theorem gale_shapley_stable_witness :
    ¬ isBlockingPair exAs exIp (gale_shapley exAs exIp) 0 10 :=
  gale_shapley_stable exAs_wf 0 10

/-- C2: for well-formed, complete preference maps, the matching returned by
`gale_shapley` is injective in both directions: no block is assigned to two
distinct requesters, and no requester is assigned two distinct blocks. -/
theorem gale_shapley_injective {α β : Type} [DecidableEq α] [DecidableEq β]
    {asPrefs : List (α × List β)} {ipPrefs : List (β × List α)}
    (wf : PrefsWF asPrefs ipPrefs) :
    (∀ a1 a2 b, gale_shapley asPrefs ipPrefs a1 = some b →
      gale_shapley asPrefs ipPrefs a2 = some b → a1 = a2) ∧
    (∀ a b1 b2, gale_shapley asPrefs ipPrefs a = some b1 →
      gale_shapley asPrefs ipPrefs a = some b2 → b1 = b2) := by
  constructor
  · exact (gs_stable_aux wf).1.2
  · intro a b1 b2 h1 h2
    rw [h1] at h2
    exact Option.some_inj.mp h2

/-- C2 witness: the injectivity theorem applied to the concrete two-by-two
instance, in which requester 0 is matched to block 10. -/
theorem gale_shapley_injective_witness :
    gale_shapley exAs exIp 0 = some 10 ∧ (0 : Nat) = 0 :=
  ⟨by decide, (gale_shapley_injective exAs_wf).1 0 0 10 (by decide) (by decide)⟩

/-- C3: for well-formed, complete preference maps, the returned matching is
itself stable, and it is requester-optimal among all stable matchings: a
requester matched here ranks its block at least as high as the block it
receives in any stable matching, and a requester unmatched here is unmatched
in every stable matching. -/
theorem gale_shapley_requester_optimal {α β : Type} [DecidableEq α] [DecidableEq β]
    {asPrefs : List (α × List β)} {ipPrefs : List (β × List α)}
    (wf : PrefsWF asPrefs ipPrefs) :
    isStableMatching asPrefs ipPrefs (gale_shapley asPrefs ipPrefs) ∧
    ∀ M, isStableMatching asPrefs ipPrefs M →
      (∀ a bg bm, gale_shapley asPrefs ipPrefs a = some bg → M a = some bm →
        idxOf bg (asPref asPrefs a) ≤ idxOf bm (asPref asPrefs a)) ∧
      (∀ a, gale_shapley asPrefs ipPrefs a = none → M a = none) :=
  ⟨gs_stable_aux wf, fun M hM => gs_optimal_aux wf M hM⟩

/-- C3 witness: the optimality theorem applied to the concrete two-by-two
instance; the first component states that the computed matching is stable. -/
theorem gale_shapley_requester_optimal_witness :
    isStableMatching exAs exIp (gale_shapley exAs exIp) :=
  (gale_shapley_requester_optimal exAs_wf).1

/-- C4 counterexample: on a well-formed instance with three requesters and
two blocks the engine performs nine proposal attempts, which exceeds
n times m equal to six: a displaced requester re-scans its preference list
from the top, repeating proposals that were already rejected. -/
theorem gale_shapley_proposals_exceed_nm :
    PrefsWF ex2As ex2Ip ∧
    (gsEvents ex2As ex2Ip).length = 9 ∧
    ex2As.length * ex2Ip.length = 6 ∧
    ¬ ((gsEvents ex2As ex2Ip).length ≤ ex2As.length * ex2Ip.length) :=
  ⟨ex2As_wf, by decide, by decide, by decide⟩

/-- C4 amended: for well-formed, complete preference maps with n requesters
and m blocks the engine still terminates, with the total number of proposal
attempts bounded by (n + m*(n+1)) * m: at most n + m*(n+1) turns are taken
from the free queue, and each turn scans at most m blocks. -/
theorem gale_shapley_proposals_bounded {α β : Type} [DecidableEq α] [DecidableEq β]
    {asPrefs : List (α × List β)} {ipPrefs : List (β × List α)}
    (wf : PrefsWF asPrefs ipPrefs) :
    (gsEvents asPrefs ipPrefs).length
      ≤ (asPrefs.length + ipPrefs.length * (asPrefs.length + 1)) * ipPrefs.length := by
  have h : (gsEvents asPrefs ipPrefs).length ≤ gsFuel asPrefs ipPrefs * ipPrefs.length :=
    gsRunEv_len wf (gsFuel asPrefs ipPrefs) (initState asPrefs)
  rw [gsFuel_of_wf wf] at h
  exact h

/-- C4 amended witness: the amended bound applied to the concrete
three-by-two instance. -/
theorem gale_shapley_proposals_bounded_witness :
    (gsEvents ex2As ex2Ip).length
      ≤ (ex2As.length + ex2Ip.length * (ex2As.length + 1)) * ex2Ip.length :=
  gale_shapley_proposals_bounded ex2As_wf

/-- C5 counterexample: on a well-formed instance, requester 0 proposes to
block 10 three times over the run: its scan position is not remembered when
it is displaced and re-enters the free queue, contradicting the claim that
no requester ever proposes to the same block more than once. -/
theorem gale_shapley_reproposal_occurs :
    PrefsWF ex2As ex2Ip ∧ (gsEvents ex2As ex2Ip).count (0, 10) = 3 :=
  ⟨ex2As_wf, by decide⟩

/-- C5 amended: whenever a requester is taken from the free queue, the
proposals of that turn walk its preference list in descending preference
order starting from the head: the blocks proposed to in one turn form a
prefix of the requester's full list. The scan position is not remembered
across turns, so a displaced requester may propose to the same block more
than once (see the counterexample). -/
theorem gale_shapley_turn_scans_prefix {α β : Type} [DecidableEq α] [DecidableEq β]
    (ipPrefs : List (β × List α)) (as_id : α) (l : List β) (st : GSState α β) :
    ∃ j, (proposeEv ipPrefs as_id l st).2 = (l.take j).map fun b => (as_id, b) :=
  proposeEv_prefix ipPrefs as_id l st

/-- Requester network 10.0.0.0/24 for the concrete ranking instance. -/
def exNetA : Network := { address := 167772160, prefixlen := 24 }

/-- Candidate blocks 10.0.0.0/23, 10.0.1.0/24 and 192.168.0.0/24. -/
def exBlocks : List Network :=
  [{ address := 167772160, prefixlen := 23 }, { address := 167772416, prefixlen := 24 },
   { address := 3232235520, prefixlen := 24 }]

/-- Two Autonomous Systems with their home networks. -/
def exASystems : List (Nat × Network) :=
  [(0, { address := 167772160, prefixlen := 24 }), (1, { address := 3232235520, prefixlen := 16 })]

/-- C6 witness: the ranking theorem applied to a concrete requester and
candidate set; the component shown states the output is a permutation of the
input candidates. -/
theorem rank_functions_spec_witness :
    (rank_ip_blocks_for_as exNetA exBlocks).Perm exBlocks :=
  (rank_functions_spec exNetA exBlocks exNetA exASystems (by decide)).1
